import Mathlib

/-!
Verification of `src/compiler/crates/relay-codegen/src/top_level_statements.rs`.

The Rust module defines:
  * `TopLevelStatement` — an enum with variants `ImportStatement { module_import_name, path }`
    and `VariableDefinition(String)`, with `#[derive(PartialOrd, Ord)]`;
  * `ModuleImportName` — an enum with variants `Default(String)` and
    `Named { name, import_as: Option<String> }`, also with derived ordering;
  * `TopLevelStatements` — a newtype around an insertion-ordered map
    (`IndexMap<String, TopLevelStatement>`) with `insert`, `contains`, `is_empty`,
    and a `Display` impl that sorts the values and writes them out.

The embedding below models the `IndexMap` as an association list that keeps insertion
order: inserting an existing key replaces the value in place, inserting a fresh key
appends at the end. Rust's derived `Ord` is modelled by explicit comparison functions
(variant order first, then fields left to right, `Option` with `None < Some`, strings
compared lexicographically). Rust compares strings by UTF-8 bytes; UTF-8 byte order
agrees with code-point order, so lexicographic comparison of the code-point sequences
(`cmpCharList` below over `String.data`) is the faithful model. `slice::sort` is a
stable sort by `Ord`; since the derived order is a linear order (it compares every
field, so `eq` implies structural equality), every sorting algorithm produces the
same, unique sorted permutation, and we model it with `List.insertionSort`.
-/

/-- Comparison of two characters by code point (Rust compares the UTF-8 bytes;
for single characters that is exactly code-point order). -/
def cmpChar (a b : Char) : Ordering :=
  if a.toNat < b.toNat then .lt else if b.toNat < a.toNat then .gt else .eq

/-- Lexicographic comparison of two character sequences, the model of Rust's
`Ord` on `String`. -/
def cmpCharList : List Char → List Char → Ordering
  | [], [] => .eq
  | [], _ :: _ => .lt
  | _ :: _, [] => .gt
  | a :: as, b :: bs => (cmpChar a b).then (cmpCharList as bs)

/-- Rust `Ord` on `String`. -/
def cmpString (a b : String) : Ordering :=
  cmpCharList a.data b.data

/-- Rust derived `Ord` on `Option<String>`: `None < Some`, contents compared otherwise. -/
def cmpOptionString : Option String → Option String → Ordering
  | none, none => .eq
  | none, some _ => .lt
  | some _, none => .gt
  | some a, some b => cmpString a b

/-- Model of the Rust enum `ModuleImportName`. -/
inductive ModuleImportName where
  | Default (name : String)
  | Named (name : String) (import_as : Option String)
deriving DecidableEq

/-- Model of the Rust enum `TopLevelStatement`. -/
inductive TopLevelStatement where
  | ImportStatement (module_import_name : ModuleImportName) (path : String)
  | VariableDefinition (text : String)
deriving DecidableEq

/-- Rust derived `Ord` on `ModuleImportName`: variant order (`Default < Named`),
then fields left to right. -/
def cmpModuleImportName : ModuleImportName → ModuleImportName → Ordering
  | .Default a, .Default b => cmpString a b
  | .Default _, .Named _ _ => .lt
  | .Named _ _, .Default _ => .gt
  | .Named n1 a1, .Named n2 a2 => (cmpString n1 n2).then (cmpOptionString a1 a2)

/-- Rust derived `Ord` on `TopLevelStatement`: variant order
(`ImportStatement < VariableDefinition`), then fields left to right. -/
def cmpTopLevelStatement : TopLevelStatement → TopLevelStatement → Ordering
  | .ImportStatement m1 p1, .ImportStatement m2 p2 =>
      (cmpModuleImportName m1 m2).then (cmpString p1 p2)
  | .ImportStatement _ _, .VariableDefinition _ => .lt
  | .VariableDefinition _, .ImportStatement _ _ => .gt
  | .VariableDefinition t1, .VariableDefinition t2 => cmpString t1 t2

/-- The `a <= b` relation induced by the derived `Ord`, used by `slice::sort`. -/
def stmtLE (a b : TopLevelStatement) : Prop :=
  (cmpTopLevelStatement a b).isLE = true

instance : DecidableRel stmtLE := fun a b => by
  unfold stmtLE; infer_instance

/-- Model of `impl Display for TopLevelStatement` (`fmt` writes exactly one
formatted string per variant; import statements end with an explicit newline,
a variable definition is written verbatim). -/
def displayTopLevelStatement : TopLevelStatement → String
  | .ImportStatement (.Default default_import) path =>
      "import " ++ default_import ++ " from '" ++ path ++ "';\n"
  | .ImportStatement (.Named name (some import_as)) path =>
      "import \x7b" ++ name ++ " as " ++ import_as ++ "\x7d from '" ++ path ++ "';\n"
  | .ImportStatement (.Named name none) path =>
      "import \x7b" ++ name ++ "\x7d from '" ++ path ++ "';\n"
  | .VariableDefinition text => text

/-- Model of `TopLevelStatements`: the `IndexMap` as an association list in insertion
order. -/
abbrev TopLevelStatements : Type := List (String × TopLevelStatement)

/-- The in-place replacement `IndexMap::insert` performs on the entry whose key
matches: the value is swapped, the key and the position stay. -/
def replaceEntry (symbol : String) (import_statement : TopLevelStatement)
    (p : String × TopLevelStatement) : String × TopLevelStatement :=
  if p.1 == symbol then (p.1, import_statement) else p

/-- Model of `TopLevelStatements::insert`, i.e. `IndexMap::insert`: if the key is
present the value is replaced at its existing position, otherwise the pair is
appended at the end. -/
def TopLevelStatements.insert (st : TopLevelStatements) (symbol : String)
    (import_statement : TopLevelStatement) : TopLevelStatements :=
  if (List.any st fun p => p.1 == symbol) then
    List.map (replaceEntry symbol import_statement) st
  else
    st ++ [(symbol, import_statement)]

/-- Model of `TopLevelStatements::contains`, i.e. `IndexMap::contains_key`. -/
def TopLevelStatements.contains (st : TopLevelStatements) (symbol : String) : Bool :=
  List.any st fun p => p.1 == symbol

/-- Model of `TopLevelStatements::is_empty`. -/
def TopLevelStatements.is_empty (st : TopLevelStatements) : Bool :=
  List.isEmpty st

/-- The value bound to a symbol: the first (and, for states with distinct keys, the
only) entry stored under it. -/
def TopLevelStatements.lookup (st : TopLevelStatements) (symbol : String) :
    Option TopLevelStatement :=
  Option.map Prod.snd (List.find? (fun p => p.1 == symbol) st)

/-- The stored statements in insertion order (`self.0.values()`). -/
def TopLevelStatements.values (st : TopLevelStatements) : List TopLevelStatement :=
  List.map Prod.snd st

/-- The stored statements after `statements.sort()` in `Display::fmt`. -/
def TopLevelStatements.sortedStatements (st : TopLevelStatements) : List TopLevelStatement :=
  List.insertionSort stmtLE (TopLevelStatements.values st)

/-- Model of `impl Display for TopLevelStatements` (`to_string` on the collection):
sort the values, then concatenate their renderings. -/
def TopLevelStatements.render (st : TopLevelStatements) : String :=
  String.join (List.map displayTopLevelStatement (TopLevelStatements.sortedStatements st))

/-- Inserting a whole list of (symbol, statement) pairs in order, starting from `st`. -/
def TopLevelStatements.insertAll (st : TopLevelStatements)
    (ps : List (String × TopLevelStatement)) : TopLevelStatements :=
  List.foldl (fun acc p => TopLevelStatements.insert acc p.1 p.2) st ps

/-! ### Basic facts about `Ordering.then` and the comparison functions -/

theorem ordThen_eq_lt {x y : Ordering} :
    x.then y = .lt ↔ x = .lt ∨ (x = .eq ∧ y = .lt) := by
  cases x <;> cases y <;> simp [Ordering.then]

theorem ordThen_eq_eq {x y : Ordering} :
    x.then y = .eq ↔ x = .eq ∧ y = .eq := by
  cases x <;> cases y <;> simp [Ordering.then]

theorem ordThen_swap {x y : Ordering} :
    (x.then y).swap = x.swap.then y.swap := by
  cases x <;> cases y <;> rfl

theorem ordSwap_isLE {x : Ordering} : x.swap.isLE = true ↔ (x = .lt → False) := by
  cases x <;> simp [Ordering.swap, Ordering.isLE]

theorem ordIsLE_iff {x : Ordering} : x.isLE = true ↔ x = .lt ∨ x = .eq := by
  cases x <;> simp [Ordering.isLE]

theorem cmpChar_eq_lt {a b : Char} : cmpChar a b = .lt ↔ a.toNat < b.toNat := by
  unfold cmpChar
  split_ifs with h1 h2
  all_goals simp_all

theorem cmpChar_eq_gt {a b : Char} : cmpChar a b = .gt ↔ b.toNat < a.toNat := by
  unfold cmpChar
  split_ifs with h1 h2
  all_goals simp_all
  omega

theorem cmpChar_eq_eq {a b : Char} : cmpChar a b = .eq ↔ a = b := by
  unfold cmpChar
  split_ifs with h1 h2
  · simp only [false_iff]
    intro h; subst h; omega
  · simp only [false_iff]
    intro h; subst h; omega
  · simp only [true_iff]
    have h3 : a.toNat = b.toNat := by omega
    exact Char.eq_of_val_eq (UInt32.toNat.inj h3)

theorem cmpChar_swap (a b : Char) : cmpChar b a = (cmpChar a b).swap := by
  rcases Nat.lt_trichotomy a.toNat b.toNat with h | h | h
  · rw [cmpChar_eq_lt.mpr h, cmpChar_eq_gt.mpr h]; rfl
  · have hab : a = b := Char.eq_of_val_eq (UInt32.toNat.inj h)
    subst hab
    rw [cmpChar_eq_eq.mpr rfl]; rfl
  · rw [cmpChar_eq_gt.mpr h, cmpChar_eq_lt.mpr h]; rfl

theorem cmpCharList_eq_eq : ∀ {l1 l2 : List Char}, cmpCharList l1 l2 = .eq ↔ l1 = l2
  | [], [] => by simp [cmpCharList]
  | [], _ :: _ => by simp [cmpCharList]
  | _ :: _, [] => by simp [cmpCharList]
  | a :: as, b :: bs => by
    simp only [cmpCharList, ordThen_eq_eq, cmpChar_eq_eq, cmpCharList_eq_eq,
      List.cons.injEq]

theorem cmpCharList_swap : ∀ (l1 l2 : List Char),
    cmpCharList l2 l1 = (cmpCharList l1 l2).swap
  | [], [] => rfl
  | [], _ :: _ => rfl
  | _ :: _, [] => rfl
  | a :: as, b :: bs => by
    simp only [cmpCharList, ordThen_swap, ← cmpChar_swap, ← cmpCharList_swap]

theorem cmpCharList_lt_trans : ∀ {l1 l2 l3 : List Char},
    cmpCharList l1 l2 = .lt → cmpCharList l2 l3 = .lt → cmpCharList l1 l3 = .lt
  | [], _, _ :: _, _, _ => rfl
  | [], l2, [], h1, h2 => by cases l2 <;> simp_all [cmpCharList]
  | _ :: _, l2, [], h1, h2 => by cases l2 <;> simp_all [cmpCharList]
  | a :: as, l2, c :: cs, h1, h2 => by
    match l2 with
    | [] => simp [cmpCharList] at h1
    | b :: bs =>
      simp only [cmpCharList, ordThen_eq_lt] at h1 h2 ⊢
      rcases h1 with h1 | ⟨h1e, h1t⟩
      · rcases h2 with h2 | ⟨h2e, h2t⟩
        · exact Or.inl (cmpChar_eq_lt.mpr
            (Nat.lt_trans (cmpChar_eq_lt.mp h1) (cmpChar_eq_lt.mp h2)))
        · obtain rfl := cmpChar_eq_eq.mp h2e
          exact Or.inl h1
      · obtain rfl := cmpChar_eq_eq.mp h1e
        rcases h2 with h2 | ⟨h2e, h2t⟩
        · exact Or.inl h2
        · obtain rfl := cmpChar_eq_eq.mp h2e
          exact Or.inr ⟨cmpChar_eq_eq.mpr rfl, cmpCharList_lt_trans h1t h2t⟩

theorem cmpString_eq_eq {a b : String} : cmpString a b = .eq ↔ a = b := by
  unfold cmpString
  rw [cmpCharList_eq_eq]
  exact ⟨fun h => String.ext h, fun h => by rw [h]⟩

theorem cmpString_swap (a b : String) : cmpString b a = (cmpString a b).swap :=
  cmpCharList_swap a.data b.data

theorem cmpString_lt_trans {a b c : String} :
    cmpString a b = .lt → cmpString b c = .lt → cmpString a c = .lt :=
  cmpCharList_lt_trans

theorem cmpOptionString_eq_eq : ∀ {a b : Option String},
    cmpOptionString a b = .eq ↔ a = b
  | none, none => by simp [cmpOptionString]
  | none, some _ => by simp [cmpOptionString]
  | some _, none => by simp [cmpOptionString]
  | some a, some b => by simp [cmpOptionString, cmpString_eq_eq]

theorem cmpOptionString_swap : ∀ (a b : Option String),
    cmpOptionString b a = (cmpOptionString a b).swap
  | none, none => rfl
  | none, some _ => rfl
  | some _, none => rfl
  | some a, some b => cmpString_swap a b

theorem cmpOptionString_lt_trans : ∀ {a b c : Option String},
    cmpOptionString a b = .lt → cmpOptionString b c = .lt → cmpOptionString a c = .lt
  | none, _, some _, _, _ => rfl
  | none, b, none, h1, h2 => by cases b <;> simp_all [cmpOptionString]
  | some _, b, none, h1, h2 => by cases b <;> simp_all [cmpOptionString]
  | some _, b, some _, h1, h2 => by
    cases b with
    | none => simp [cmpOptionString] at h1
    | some _ => exact cmpString_lt_trans h1 h2

theorem cmpModuleImportName_eq_eq : ∀ {a b : ModuleImportName},
    cmpModuleImportName a b = .eq ↔ a = b
  | .Default _, .Default _ => by
      simp [cmpModuleImportName, cmpString_eq_eq]
  | .Default _, .Named _ _ => by simp [cmpModuleImportName]
  | .Named _ _, .Default _ => by simp [cmpModuleImportName]
  | .Named _ _, .Named _ _ => by
      simp [cmpModuleImportName, ordThen_eq_eq, cmpString_eq_eq, cmpOptionString_eq_eq]

theorem cmpModuleImportName_swap : ∀ (a b : ModuleImportName),
    cmpModuleImportName b a = (cmpModuleImportName a b).swap
  | .Default a, .Default b => cmpString_swap a b
  | .Default _, .Named _ _ => rfl
  | .Named _ _, .Default _ => rfl
  | .Named n1 a1, .Named n2 a2 => by
      simp only [cmpModuleImportName, ordThen_swap, ← cmpString_swap, ← cmpOptionString_swap]

theorem cmpModuleImportName_lt_trans : ∀ {a b c : ModuleImportName},
    cmpModuleImportName a b = .lt → cmpModuleImportName b c = .lt →
      cmpModuleImportName a c = .lt
  | .Default _, b, .Named _ _, _, _ => by cases b <;> rfl
  | .Default _, b, .Default _, h1, h2 => by
      cases b with
      | Default _ => exact cmpString_lt_trans h1 h2
      | Named _ _ => simp [cmpModuleImportName] at h2
  | .Named _ _, b, .Default _, h1, h2 => by
      cases b <;> simp_all [cmpModuleImportName]
  | .Named n1 a1, b, .Named n3 a3, h1, h2 => by
      match b with
      | .Default _ => simp [cmpModuleImportName] at h1
      | .Named n2 a2 =>
        simp only [cmpModuleImportName, ordThen_eq_lt] at h1 h2 ⊢
        rcases h1 with h1 | ⟨h1e, h1t⟩
        · rcases h2 with h2 | ⟨h2e, h2t⟩
          · exact Or.inl (cmpString_lt_trans h1 h2)
          · obtain rfl := cmpString_eq_eq.mp h2e
            exact Or.inl h1
        · obtain rfl := cmpString_eq_eq.mp h1e
          rcases h2 with h2 | ⟨h2e, h2t⟩
          · exact Or.inl h2
          · obtain rfl := cmpString_eq_eq.mp h2e
            exact Or.inr ⟨cmpString_eq_eq.mpr rfl, cmpOptionString_lt_trans h1t h2t⟩

theorem cmpTopLevelStatement_eq_eq : ∀ {a b : TopLevelStatement},
    cmpTopLevelStatement a b = .eq ↔ a = b
  | .ImportStatement _ _, .ImportStatement _ _ => by
      simp [cmpTopLevelStatement, ordThen_eq_eq, cmpModuleImportName_eq_eq, cmpString_eq_eq]
  | .ImportStatement _ _, .VariableDefinition _ => by simp [cmpTopLevelStatement]
  | .VariableDefinition _, .ImportStatement _ _ => by simp [cmpTopLevelStatement]
  | .VariableDefinition _, .VariableDefinition _ => by
      simp [cmpTopLevelStatement, cmpString_eq_eq]

theorem cmpTopLevelStatement_swap : ∀ (a b : TopLevelStatement),
    cmpTopLevelStatement b a = (cmpTopLevelStatement a b).swap
  | .ImportStatement _ _, .ImportStatement _ _ => by
      simp only [cmpTopLevelStatement, ordThen_swap, ← cmpModuleImportName_swap,
        ← cmpString_swap]
  | .ImportStatement _ _, .VariableDefinition _ => rfl
  | .VariableDefinition _, .ImportStatement _ _ => rfl
  | .VariableDefinition t1, .VariableDefinition t2 => cmpString_swap t1 t2

theorem cmpTopLevelStatement_lt_trans : ∀ {a b c : TopLevelStatement},
    cmpTopLevelStatement a b = .lt → cmpTopLevelStatement b c = .lt →
      cmpTopLevelStatement a c = .lt
  | .ImportStatement _ _, b, .VariableDefinition _, _, _ => by cases b <;> rfl
  | .ImportStatement _ _, b, .ImportStatement _ _, h1, h2 => by
      match b with
      | .VariableDefinition _ => simp [cmpTopLevelStatement] at h2
      | .ImportStatement m2 p2 =>
        simp only [cmpTopLevelStatement, ordThen_eq_lt] at h1 h2 ⊢
        rcases h1 with h1 | ⟨h1e, h1t⟩
        · rcases h2 with h2 | ⟨h2e, h2t⟩
          · exact Or.inl (cmpModuleImportName_lt_trans h1 h2)
          · obtain rfl := cmpModuleImportName_eq_eq.mp h2e
            exact Or.inl h1
        · obtain rfl := cmpModuleImportName_eq_eq.mp h1e
          rcases h2 with h2 | ⟨h2e, h2t⟩
          · exact Or.inl h2
          · obtain rfl := cmpModuleImportName_eq_eq.mp h2e
            exact Or.inr ⟨cmpModuleImportName_eq_eq.mpr rfl, cmpString_lt_trans h1t h2t⟩
  | .VariableDefinition _, b, .ImportStatement _ _, h1, h2 => by
      cases b <;> simp_all [cmpTopLevelStatement]
  | .VariableDefinition _, b, .VariableDefinition _, h1, h2 => by
      match b with
      | .ImportStatement _ _ => simp [cmpTopLevelStatement] at h1
      | .VariableDefinition _ => exact cmpString_lt_trans h1 h2

/-! ### `stmtLE` is a linear order -/

theorem stmtLE_total (a b : TopLevelStatement) : stmtLE a b ∨ stmtLE b a := by
  unfold stmtLE
  rw [cmpTopLevelStatement_swap a b]
  cases cmpTopLevelStatement a b <;> simp [Ordering.swap, Ordering.isLE]

theorem stmtLE_trans {a b c : TopLevelStatement} :
    stmtLE a b → stmtLE b c → stmtLE a c := by
  unfold stmtLE
  intro h1 h2
  rw [ordIsLE_iff] at h1 h2 ⊢
  rcases h1 with h1 | h1
  · rcases h2 with h2 | h2
    · exact Or.inl (cmpTopLevelStatement_lt_trans h1 h2)
    · obtain rfl := cmpTopLevelStatement_eq_eq.mp h2
      exact Or.inl h1
  · obtain rfl := cmpTopLevelStatement_eq_eq.mp h1
    rcases h2 with h2 | h2
    · exact Or.inl h2
    · exact Or.inr h2

theorem stmtLE_antisymm {a b : TopLevelStatement} :
    stmtLE a b → stmtLE b a → a = b := by
  unfold stmtLE
  intro h1 h2
  rw [cmpTopLevelStatement_swap a b] at h2
  apply cmpTopLevelStatement_eq_eq.mp
  rw [ordIsLE_iff] at h1
  rcases h1 with h1 | h1
  · rw [h1] at h2; simp [Ordering.swap, Ordering.isLE] at h2
  · exact h1

instance : IsTotal TopLevelStatement stmtLE := ⟨stmtLE_total⟩

instance : IsTrans TopLevelStatement stmtLE := ⟨fun _ _ _ => stmtLE_trans⟩

instance : IsAntisymm TopLevelStatement stmtLE := ⟨fun _ _ => stmtLE_antisymm⟩

instance : IsRefl TopLevelStatement stmtLE :=
  ⟨fun a => by unfold stmtLE; rw [cmpTopLevelStatement_eq_eq.mpr rfl]; rfl⟩

/-! ### Facts about `insert` on the association-list model of `IndexMap` -/

theorem replaceEntry_fst (s : String) (v : TopLevelStatement)
    (p : String × TopLevelStatement) : (replaceEntry s v p).1 = p.1 := by
  unfold replaceEntry
  split <;> rfl

theorem replaceEntry_replaceEntry (s : String) (v1 v2 : TopLevelStatement)
    (p : String × TopLevelStatement) :
    replaceEntry s v2 (replaceEntry s v1 p) = replaceEntry s v2 p := by
  unfold replaceEntry
  by_cases h : p.1 == s <;> simp [h]

theorem any_map_replaceEntry (st : TopLevelStatements) (s : String)
    (v : TopLevelStatement) (q : String) :
    List.any (List.map (replaceEntry s v) st) (fun p => p.1 == q)
      = List.any st (fun p => p.1 == q) := by
  induction st with
  | nil => rfl
  | cons p st ih => simp [List.any_cons, replaceEntry_fst, ih]

theorem insert_last_wins (st : TopLevelStatements) (s : String)
    (v1 v2 : TopLevelStatement) :
    TopLevelStatements.insert (TopLevelStatements.insert st s v1) s v2
      = TopLevelStatements.insert st s v2 := by
  unfold TopLevelStatements.insert
  cases h : List.any st (fun p => p.1 == s) with
  | true =>
    have h2 : List.any (List.map (replaceEntry s v1) st) (fun p => p.1 == s) = true := by
      rw [any_map_replaceEntry]; exact h
    simp only [h, h2, if_true, List.map_map]
    apply List.map_congr_left
    intro p _
    exact replaceEntry_replaceEntry s v1 v2 p
  | false =>
    have h2 : List.any (st ++ [(s, v1)]) (fun p => p.1 == s) = true := by
      simp [List.any_append]
    simp only [h, h2, if_true, Bool.false_eq_true, if_false, List.map_append]
    have hst : List.map (replaceEntry s v2) st = st := by
      have hall := List.any_eq_false.mp h
      conv_rhs => rw [← List.map_id st]
      apply List.map_congr_left
      intro p hp
      have : (p.1 == s) = false := by
        have := hall p hp
        simpa using this
      simp [replaceEntry, this]
    rw [hst]
    simp [replaceEntry]

theorem contains_insert (st : TopLevelStatements) (k : String) (v : TopLevelStatement)
    (s : String) :
    TopLevelStatements.contains (TopLevelStatements.insert st k v) s = true ↔
      (TopLevelStatements.contains st s = true ∨ s = k) := by
  unfold TopLevelStatements.contains TopLevelStatements.insert
  cases h : List.any st (fun p => p.1 == k) with
  | true =>
    simp only [if_true, any_map_replaceEntry]
    constructor
    · exact Or.inl
    · rintro (h1 | rfl)
      · exact h1
      · exact h
  | false =>
    simp only [Bool.false_eq_true, if_false, List.any_append, List.any_cons,
      List.any_nil, Bool.or_false, Bool.or_eq_true, beq_iff_eq]
    constructor
    · rintro (h1 | h1)
      · exact Or.inl h1
      · exact Or.inr h1.symm
    · rintro (h1 | rfl)
      · exact Or.inl h1
      · exact Or.inr rfl

theorem find_map_replaceEntry (st : TopLevelStatements) {s1 s2 : String}
    (v : TopLevelStatement) (h : s1 ≠ s2) :
    List.find? (fun p => p.1 == s1) (List.map (replaceEntry s2 v) st)
      = List.find? (fun p => p.1 == s1) st := by
  induction st with
  | nil => rfl
  | cons p st ih =>
    rw [List.map_cons]
    by_cases hp : p.1 = s1
    · have hf : replaceEntry s2 v p = p := by
        have : (p.1 == s2) = false := by
          rw [beq_eq_false_iff_ne]
          rw [hp]; exact h
        simp [replaceEntry, this]
      rw [hf, List.find?_cons_of_pos _ (by simpa using hp),
        List.find?_cons_of_pos _ (by simpa using hp)]
    · have hfst : ((replaceEntry s2 v p).1 == s1) = false := by
        rw [replaceEntry_fst, beq_eq_false_iff_ne]
        exact hp
      rw [List.find?_cons_of_neg _ (by simp [hfst]),
        List.find?_cons_of_neg _ (by simpa using hp), ih]

/-- Inserting under one symbol leaves the binding of every other symbol alone. -/
theorem lookup_insert_ne (st : TopLevelStatements) {s1 s2 : String}
    (v2 : TopLevelStatement) (h : s1 ≠ s2) :
    TopLevelStatements.lookup (TopLevelStatements.insert st s2 v2) s1
      = TopLevelStatements.lookup st s1 := by
  unfold TopLevelStatements.lookup TopLevelStatements.insert
  cases hc : List.any st (fun p => p.1 == s2) with
  | true =>
    rw [if_pos rfl, find_map_replaceEntry st v2 h]
  | false =>
    simp only [Bool.false_eq_true, if_false, List.find?_append]
    have : List.find? (fun p => p.1 == s1) [(s2, v2)] = none := by
      simp [beq_eq_false_iff_ne, Ne.symm h]
    rw [this, Option.or_none]

theorem contains_insert_ne (st : TopLevelStatements) {s1 s2 : String}
    (v2 : TopLevelStatement) (h : s1 ≠ s2) :
    TopLevelStatements.contains (TopLevelStatements.insert st s2 v2) s1
      = TopLevelStatements.contains st s1 := by
  unfold TopLevelStatements.contains TopLevelStatements.insert
  cases hc : List.any st (fun p => p.1 == s2) with
  | true => rw [if_pos rfl, any_map_replaceEntry]
  | false =>
    simp only [Bool.false_eq_true, if_false, List.any_append, List.any_cons, List.any_nil]
    have : (s2 == s1) = false := by
      rw [beq_eq_false_iff_ne]; exact Ne.symm h
    simp [this]

/-- `insert` never produces the empty collection. -/
theorem insert_ne_nil (st : TopLevelStatements) (s : String) (v : TopLevelStatement) :
    TopLevelStatements.insert st s v ≠ [] := by
  unfold TopLevelStatements.insert
  cases st with
  | nil => simp
  | cons p st =>
    split
    · simp
    · simp

theorem insertAll_ne_nil (ps : List (String × TopLevelStatement)) :
    ∀ st : TopLevelStatements, st ≠ [] → TopLevelStatements.insertAll st ps ≠ [] := by
  induction ps with
  | nil => intro st h; exact h
  | cons p ps ih =>
    intro st h
    exact ih (TopLevelStatements.insert st p.1 p.2) (insert_ne_nil st p.1 p.2)

/-- Inserting pairwise-distinct fresh symbols just appends the pairs in order. -/
theorem insertAll_of_fresh (ps : List (String × TopLevelStatement)) :
    ∀ st : TopLevelStatements, (List.map Prod.fst ps).Nodup →
      (∀ p ∈ ps, TopLevelStatements.contains st p.1 = false) →
      TopLevelStatements.insertAll st ps = st ++ ps := by
  induction ps with
  | nil => intro st _ _; exact (List.append_nil st).symm
  | cons p ps ih =>
    intro st hnodup hfresh
    have hp : TopLevelStatements.contains st p.1 = false :=
      hfresh p (List.mem_cons_self p ps)
    have hstep : TopLevelStatements.insert st p.1 p.2 = st ++ [p] := by
      unfold TopLevelStatements.insert
      unfold TopLevelStatements.contains at hp
      simp [hp]
    have htail : TopLevelStatements.insertAll st (p :: ps)
        = TopLevelStatements.insertAll (st ++ [p]) ps := by
      unfold TopLevelStatements.insertAll
      rw [List.foldl_cons, hstep]
    rw [htail, ih (st ++ [p]) (List.Nodup.of_cons (by simpa using hnodup))]
    · rw [List.append_assoc]; rfl
    · intro q hq
      unfold TopLevelStatements.contains
      rw [List.any_append]
      have h1 : List.any st (fun r => r.1 == q.1) = false := by
        have := hfresh q (List.mem_cons_of_mem p hq)
        unfold TopLevelStatements.contains at this
        exact this
      have h2 : (p.1 == q.1) = false := by
        rw [beq_eq_false_iff_ne]
        intro heq
        have hmem : q.1 ∈ List.map Prod.fst ps := List.mem_map_of_mem Prod.fst hq
        rw [List.map_cons, List.nodup_cons] at hnodup
        exact hnodup.1 (heq ▸ hmem)
      simp [h1, h2]

/-- On a fresh collection, inserting pairwise-distinct symbols stores exactly the
given pairs in the given order. -/
theorem insertAll_nil_of_nodup (ps : List (String × TopLevelStatement))
    (hnodup : (List.map Prod.fst ps).Nodup) :
    TopLevelStatements.insertAll [] ps = ps := by
  have := insertAll_of_fresh ps [] hnodup (by intro p _; rfl)
  simpa using this

/-- After an insert, the inserted symbol is bound: looking it up yields the
inserted statement. -/
theorem find_map_replaceEntry_self {s : String} {v : TopLevelStatement} :
    ∀ st : TopLevelStatements, List.any st (fun p => p.1 == s) = true →
      Option.map Prod.snd
          (List.find? (fun p => p.1 == s) (List.map (replaceEntry s v) st)) = some v := by
  intro st
  induction st with
  | nil => intro h; simp at h
  | cons p st ih =>
    intro h
    by_cases hp : (p.1 == s) = true
    · have hre : replaceEntry s v p = (p.1, v) := by simp [replaceEntry, hp]
      rw [List.map_cons, hre, List.find?_cons_of_pos _ (by simpa using hp)]
      rfl
    · have hre : replaceEntry s v p = p := by simp [replaceEntry, hp]
      have htail : List.any st (fun p => p.1 == s) = true := by
        rw [List.any_cons] at h
        simpa [hp] using h
      rw [List.map_cons, hre, List.find?_cons_of_neg _ (by simpa using hp)]
      exact ih htail

theorem lookup_insert_self (st : TopLevelStatements) (s : String) (v : TopLevelStatement) :
    TopLevelStatements.lookup (TopLevelStatements.insert st s v) s = some v := by
  unfold TopLevelStatements.lookup TopLevelStatements.insert
  cases hc : List.any st (fun p => p.1 == s) with
  | true =>
    rw [if_pos rfl]
    exact find_map_replaceEntry_self st hc
  | false =>
    simp only [Bool.false_eq_true, if_false, List.find?_append]
    have hn : List.find? (fun p => p.1 == s) st = none :=
      List.find?_eq_none.mpr (by
        intro p hp
        have := List.any_eq_false.mp hc p hp
        simpa using this)
    rw [hn, Option.none_or]
    simp

/-- With pairwise-distinct keys, the entries stored under the inserted symbol are
exactly the single inserted pair. -/
theorem filter_insert_eq_key {s : String} {v : TopLevelStatement} :
    ∀ st : TopLevelStatements, (List.map Prod.fst st).Nodup →
      List.filter (fun p => p.1 == s) (TopLevelStatements.insert st s v) = [(s, v)] := by
  intro st
  induction st with
  | nil =>
    intro _
    simp [TopLevelStatements.insert, List.filter]
  | cons p st ih =>
    intro hnodup
    rw [List.map_cons, List.nodup_cons] at hnodup
    by_cases hp : (p.1 == s) = true
    · have hps : p.1 = s := by simpa using hp
      have hcond : List.any (p :: st) (fun q => q.1 == s) = true := by
        simp [List.any_cons, hp]
      unfold TopLevelStatements.insert
      rw [if_pos hcond, List.map_cons]
      have hre : replaceEntry s v p = (p.1, v) := by simp [replaceEntry, hp]
      rw [hre, List.filter_cons_of_pos (by simpa using hp)]
      have hrest : ∀ q ∈ st, (q.1 == s) = false := by
        intro q hq
        rw [beq_eq_false_iff_ne]
        intro hqs
        exact hnodup.1 (by rw [hps, ← hqs]; exact List.mem_map_of_mem Prod.fst hq)
      have hmap : List.map (replaceEntry s v) st = st := by
        conv_rhs => rw [← List.map_id st]
        apply List.map_congr_left
        intro q hq
        simp [replaceEntry, hrest q hq]
      rw [hmap, List.filter_eq_nil_iff.mpr (by
        intro q hq
        simp [hrest q hq]), hps]
    · have hre : replaceEntry s v p = p := by simp [replaceEntry, hp]
      cases hs : List.any st (fun q => q.1 == s) with
      | true =>
        have hcond : List.any (p :: st) (fun q => q.1 == s) = true := by
          simp [List.any_cons, hs]
        have hst : TopLevelStatements.insert st s v = List.map (replaceEntry s v) st := by
          unfold TopLevelStatements.insert
          rw [if_pos hs]
        unfold TopLevelStatements.insert
        rw [if_pos hcond, List.map_cons, hre,
          List.filter_cons_of_neg (by simpa using hp), ← hst]
        exact ih hnodup.2
      | false =>
        have hcond : List.any (p :: st) (fun q => q.1 == s) = false := by
          simp [List.any_cons, hs, hp]
        have hst : TopLevelStatements.insert st s v = st ++ [(s, v)] := by
          unfold TopLevelStatements.insert
          rw [hs]
          simp
        unfold TopLevelStatements.insert
        rw [if_neg (by simp [hcond]), List.cons_append,
          List.filter_cons_of_neg (by simpa using hp), ← hst]
        exact ih hnodup.2

/-- Entries under other symbols are untouched by an insert. -/
theorem filter_map_replaceEntry_ne (st : TopLevelStatements) (s : String)
    (v : TopLevelStatement) :
    List.filter (fun p => !(p.1 == s)) (List.map (replaceEntry s v) st)
      = List.filter (fun p => !(p.1 == s)) st := by
  induction st with
  | nil => rfl
  | cons p st ih =>
    rw [List.map_cons]
    by_cases hp : (p.1 == s) = true
    · have hre : replaceEntry s v p = (p.1, v) := by simp [replaceEntry, hp]
      rw [hre, List.filter_cons_of_neg (by simp [hp]),
        List.filter_cons_of_neg (by simp [hp]), ih]
    · have hre : replaceEntry s v p = p := by simp [replaceEntry, hp]
      rw [hre, List.filter_cons_of_pos (by simp [hp]),
        List.filter_cons_of_pos (by simp [hp]), ih]

theorem filter_insert_ne_key (st : TopLevelStatements) (s : String)
    (v : TopLevelStatement) :
    List.filter (fun p => !(p.1 == s)) (TopLevelStatements.insert st s v)
      = List.filter (fun p => !(p.1 == s)) st := by
  unfold TopLevelStatements.insert
  cases hc : List.any st (fun p => p.1 == s) with
  | true =>
    rw [if_pos rfl]
    exact filter_map_replaceEntry_ne st s v
  | false =>
    simp only [Bool.false_eq_true, if_false, List.filter_append]
    simp

/-- Sorting by the derived order is invariant under permutation of the input:
the order is linear, so the sorted permutation is unique. -/
theorem insertionSort_perm_congr {l1 l2 : List TopLevelStatement}
    (h : List.Perm l1 l2) :
    List.insertionSort stmtLE l1 = List.insertionSort stmtLE l2 := by
  apply List.eq_of_perm_of_sorted (r := stmtLE)
  · exact ((List.perm_insertionSort stmtLE l1).trans h).trans
      (List.perm_insertionSort stmtLE l2).symm
  · exact List.sorted_insertionSort stmtLE l1
  · exact List.sorted_insertionSort stmtLE l2

/-! ### The ordering stated by the spec, written independently of the `Ord` model -/

/-- Strict lexicographic order on character sequences. -/
def charListLT : List Char → List Char → Prop
  | [], [] => False
  | [], _ :: _ => True
  | _ :: _, [] => False
  | a :: as, b :: bs => a.toNat < b.toNat ∨ (a = b ∧ charListLT as bs)

/-- Lexicographic order (allowing equality) on character sequences. -/
def charListLE : List Char → List Char → Prop
  | [], _ => True
  | _ :: _, [] => False
  | a :: as, b :: bs => a.toNat < b.toNat ∨ (a = b ∧ charListLE as bs)

/-- Strict lexicographic order on strings. -/
def strLT (a b : String) : Prop := charListLT a.data b.data

/-- Lexicographic order on strings. -/
def strLE (a b : String) : Prop := charListLE a.data b.data

/-- The spec's order on optional aliases: absence of an alias sorts before
presence, two present aliases sort lexicographically. -/
def optionStrLE : Option String → Option String → Prop
  | none, _ => True
  | some _, none => False
  | some a, some b => strLE a b

/-- The total-order constraints the spec states for `render`: every import
precedes every variable definition; among imports `Default` precedes `Named`,
`Default` imports are ordered by their bound name, `Named` imports by imported
name and then alias (absence first); variable definitions are ordered by their
literal text. -/
def specOrd : TopLevelStatement → TopLevelStatement → Prop
  | .ImportStatement m1 _, .ImportStatement m2 _ =>
    match m1, m2 with
    | .Default d1, .Default d2 => strLE d1 d2
    | .Default _, .Named _ _ => True
    | .Named _ _, .Default _ => False
    | .Named n1 a1, .Named n2 a2 => strLT n1 n2 ∨ (n1 = n2 ∧ optionStrLE a1 a2)
  | .ImportStatement _ _, .VariableDefinition _ => True
  | .VariableDefinition _, .ImportStatement _ _ => False
  | .VariableDefinition t1, .VariableDefinition t2 => strLE t1 t2

theorem ordThen_isLE {x y : Ordering} :
    (x.then y).isLE = true ↔ x = .lt ∨ (x = .eq ∧ y.isLE = true) := by
  cases x <;> cases y <;> simp [Ordering.then, Ordering.isLE]

theorem cmpCharList_lt_iff : ∀ {l1 l2 : List Char},
    cmpCharList l1 l2 = .lt ↔ charListLT l1 l2
  | [], [] => by simp [cmpCharList, charListLT]
  | [], _ :: _ => by simp [cmpCharList, charListLT]
  | _ :: _, [] => by simp [cmpCharList, charListLT]
  | a :: as, b :: bs => by
    simp only [cmpCharList, charListLT, ordThen_eq_lt, cmpChar_eq_lt, cmpChar_eq_eq,
      cmpCharList_lt_iff]

theorem cmpCharList_isLE_iff : ∀ {l1 l2 : List Char},
    (cmpCharList l1 l2).isLE = true ↔ charListLE l1 l2
  | [], [] => by simp [cmpCharList, charListLE, Ordering.isLE]
  | [], _ :: _ => by simp [cmpCharList, charListLE, Ordering.isLE]
  | _ :: _, [] => by simp [cmpCharList, charListLE, Ordering.isLE]
  | a :: as, b :: bs => by
    simp only [cmpCharList, charListLE, ordThen_isLE, cmpChar_eq_lt, cmpChar_eq_eq,
      cmpCharList_isLE_iff]

theorem cmpString_lt_iff {a b : String} : cmpString a b = .lt ↔ strLT a b :=
  cmpCharList_lt_iff

theorem cmpString_isLE_iff {a b : String} : (cmpString a b).isLE = true ↔ strLE a b :=
  cmpCharList_isLE_iff

theorem cmpOptionString_isLE_iff : ∀ {a b : Option String},
    (cmpOptionString a b).isLE = true ↔ optionStrLE a b
  | none, none => by simp [cmpOptionString, optionStrLE, Ordering.isLE]
  | none, some _ => by simp [cmpOptionString, optionStrLE, Ordering.isLE]
  | some _, none => by simp [cmpOptionString, optionStrLE, Ordering.isLE]
  | some a, some b => cmpString_isLE_iff

/-- The derived order the code sorts by refines the order stated by the spec. -/
theorem stmtLE_imp_specOrd : ∀ {a b : TopLevelStatement}, stmtLE a b → specOrd a b := by
  intro a b h
  cases a with
  | VariableDefinition t1 =>
    cases b with
    | ImportStatement m2 p2 =>
      simp [stmtLE, cmpTopLevelStatement, Ordering.isLE] at h
    | VariableDefinition t2 =>
      exact cmpString_isLE_iff.mp h
  | ImportStatement m1 p1 =>
    cases b with
    | VariableDefinition t2 => exact trivial
    | ImportStatement m2 p2 =>
      unfold stmtLE cmpTopLevelStatement at h
      rcases ordThen_isLE.mp h with hm | ⟨hm, _⟩
      · cases m1 with
        | Default d1 =>
          cases m2 with
          | Default d2 =>
            exact cmpString_isLE_iff.mp (by rw [show cmpString d1 d2 = .lt from hm]; rfl)
          | Named n2 a2 => exact trivial
        | Named n1 a1 =>
          cases m2 with
          | Default d2 => simp [cmpModuleImportName] at hm
          | Named n2 a2 =>
            unfold cmpModuleImportName at hm
            rcases ordThen_eq_lt.mp hm with hn | ⟨hn, ha⟩
            · exact Or.inl (cmpString_lt_iff.mp hn)
            · refine Or.inr ⟨cmpString_eq_eq.mp hn, ?_⟩
              exact cmpOptionString_isLE_iff.mp (by rw [ha]; rfl)
      · cases m1 with
        | Default d1 =>
          cases m2 with
          | Default d2 =>
            have : d1 = d2 := cmpString_eq_eq.mp hm
            subst this
            exact cmpString_isLE_iff.mp (by rw [cmpString_eq_eq.mpr rfl]; rfl)
          | Named n2 a2 => exact trivial
        | Named n1 a1 =>
          cases m2 with
          | Default d2 => simp [cmpModuleImportName] at hm
          | Named n2 a2 =>
            unfold cmpModuleImportName at hm
            obtain ⟨hn, ha⟩ := ordThen_eq_eq.mp hm
            refine Or.inr ⟨cmpString_eq_eq.mp hn, ?_⟩
            exact cmpOptionString_isLE_iff.mp (by rw [ha]; rfl)

/-- Splitting the newline off the trailing `';\n` literal of an import rendering. -/
theorem append_newline_split (x : String) : x ++ "';\n" = (x ++ "';") ++ "\n" := by
  rw [String.append_assoc]
  congr 1

/-! ### The claims -/

/-- C1: for every finite set of (symbol, statement) pairs with distinct symbols,
inserting them into a fresh `TopLevelStatements` in any permutation order and then
rendering yields identical output text. -/
theorem render_insertAll_perm_invariant (ps qs : List (String × TopLevelStatement))
    (hperm : List.Perm ps qs) (hnodup : (List.map Prod.fst ps).Nodup) :
    TopLevelStatements.render (TopLevelStatements.insertAll [] ps)
      = TopLevelStatements.render (TopLevelStatements.insertAll [] qs) := by
  have hq : (List.map Prod.fst qs).Nodup := (hperm.map Prod.fst).nodup_iff.mp hnodup
  rw [insertAll_nil_of_nodup ps hnodup, insertAll_nil_of_nodup qs hq]
  unfold TopLevelStatements.render TopLevelStatements.sortedStatements
    TopLevelStatements.values
  rw [insertionSort_perm_congr (hperm.map Prod.snd)]

/-- C1 witness: the theorem applied to two concrete permuted insertion sequences. -/
theorem render_insertAll_perm_invariant_witness :
    List.Perm
        [("b", TopLevelStatement.VariableDefinition "const b = 2;"),
         ("a", TopLevelStatement.VariableDefinition "const a = 1;")]
        [("a", TopLevelStatement.VariableDefinition "const a = 1;"),
         ("b", TopLevelStatement.VariableDefinition "const b = 2;")] ∧
    (List.map Prod.fst
        [("b", TopLevelStatement.VariableDefinition "const b = 2;"),
         ("a", TopLevelStatement.VariableDefinition "const a = 1;")]).Nodup ∧
    TopLevelStatements.render (TopLevelStatements.insertAll []
        [("b", TopLevelStatement.VariableDefinition "const b = 2;"),
         ("a", TopLevelStatement.VariableDefinition "const a = 1;")])
      = TopLevelStatements.render (TopLevelStatements.insertAll []
        [("a", TopLevelStatement.VariableDefinition "const a = 1;"),
         ("b", TopLevelStatement.VariableDefinition "const b = 2;")]) := by
  refine ⟨List.Perm.swap _ _ _, by decide, ?_⟩
  exact render_insertAll_perm_invariant _ _ (List.Perm.swap _ _ _) (by decide)

/-- C2: `render` emits the stored statements sorted by the stated total order: imports
before variable definitions; among imports `Default` before `Named`,
`Default` by bound name, `Named` by (imported name, then alias, absence first);
variable definitions by literal text. -/
theorem render_sorted_by_spec_order (st : TopLevelStatements) :
    List.Perm (TopLevelStatements.sortedStatements st) (TopLevelStatements.values st) ∧
    List.Pairwise specOrd (TopLevelStatements.sortedStatements st) ∧
    TopLevelStatements.render st
      = String.join
          (List.map displayTopLevelStatement (TopLevelStatements.sortedStatements st)) :=
  ⟨List.perm_insertionSort stmtLE _,
   List.Pairwise.imp stmtLE_imp_specOrd
     (List.sorted_insertionSort stmtLE (TopLevelStatements.values st)),
   rfl⟩

/-- C3: the concrete scenario from the spec: a default import under symbol `Foo`,
a variable definition under `bar` and a named import under `Baz` render as the
two import lines followed by the variable definition. -/
theorem render_scenario_foo_bar_baz :
    TopLevelStatements.render
      (TopLevelStatements.insert
        (TopLevelStatements.insert
          (TopLevelStatements.insert [] "Foo"
            (.ImportStatement (.Default "Foo") "Foo.graphql"))
          "bar" (.VariableDefinition "const bar = 1;"))
        "Baz" (.ImportStatement (.Named "Baz" none) "Baz.graphql"))
      = "import Foo from 'Foo.graphql';\nimport \x7bBaz\x7d from 'Baz.graphql';\nconst bar = 1;" := by
  decide

/-- C4: `insert` is idempotent: inserting the identical (symbol, statement) pair
twice in succession renders the same as inserting it once. -/
theorem render_insert_idempotent (st : TopLevelStatements) (s : String)
    (v : TopLevelStatement) :
    TopLevelStatements.render
        (TopLevelStatements.insert (TopLevelStatements.insert st s v) s v)
      = TopLevelStatements.render (TopLevelStatements.insert st s v) := by
  rw [insert_last_wins]

/-- C5: `insert` overwrites under the same key: after inserting `v1` and then `v2`
under the same symbol, the state equals the one obtained by inserting `v2` alone,
the symbol is bound to exactly the single entry `(s, v2)`, and the entries under
all other symbols are exactly those of the original state. -/
theorem insert_overwrites_same_key (st : TopLevelStatements) (s : String)
    (v1 v2 : TopLevelStatement) (hnodup : (List.map Prod.fst st).Nodup) :
    TopLevelStatements.insert (TopLevelStatements.insert st s v1) s v2
        = TopLevelStatements.insert st s v2 ∧
    List.filter (fun p => p.1 == s)
        (TopLevelStatements.insert (TopLevelStatements.insert st s v1) s v2)
      = [(s, v2)] ∧
    List.filter (fun p => !(p.1 == s))
        (TopLevelStatements.insert (TopLevelStatements.insert st s v1) s v2)
      = List.filter (fun p => !(p.1 == s)) st ∧
    TopLevelStatements.lookup
        (TopLevelStatements.insert (TopLevelStatements.insert st s v1) s v2) s
      = some v2 := by
  refine ⟨insert_last_wins st s v1 v2, ?_, ?_, ?_⟩
  · rw [insert_last_wins st s v1 v2]
    exact filter_insert_eq_key st hnodup
  · rw [insert_last_wins st s v1 v2]
    exact filter_insert_ne_key st s v2
  · rw [insert_last_wins st s v1 v2]
    exact lookup_insert_self st s v2

/-- C5 witness: the theorem applied to a concrete state with a distinct-key store. -/
theorem insert_overwrites_same_key_witness :
    (List.map Prod.fst
        ([("a", TopLevelStatement.VariableDefinition "const a = 1;")] :
          TopLevelStatements)).Nodup ∧
    TopLevelStatements.insert
        (TopLevelStatements.insert
          [("a", TopLevelStatement.VariableDefinition "const a = 1;")] "a"
          (TopLevelStatement.VariableDefinition "old")) "a"
        (TopLevelStatement.VariableDefinition "new")
      = TopLevelStatements.insert
          [("a", TopLevelStatement.VariableDefinition "const a = 1;")] "a"
          (TopLevelStatement.VariableDefinition "new") := by
  refine ⟨by decide, ?_⟩
  exact (insert_overwrites_same_key
    [("a", TopLevelStatement.VariableDefinition "const a = 1;")] "a"
    (TopLevelStatement.VariableDefinition "old")
    (TopLevelStatement.VariableDefinition "new") (by decide)).1

/-- C6: each statement variant renders in the stated textual form: a default one
as `import X from 'path';`, a named import without alias as
`import {name} from 'path';`, a named import with alias as
`import {name as alias} from 'path';` (each import line newline-terminated),
and a variable definition as its stored text verbatim. -/
theorem display_statement_forms :
    (∀ d p, displayTopLevelStatement (.ImportStatement (.Default d) p)
        = "import " ++ (d ++ (" from '" ++ (p ++ "';\n")))) ∧
    (∀ n p, displayTopLevelStatement (.ImportStatement (.Named n none) p)
        = "import \x7b" ++ (n ++ ("\x7d from '" ++ (p ++ "';\n")))) ∧
    (∀ n a p, displayTopLevelStatement (.ImportStatement (.Named n (some a)) p)
        = "import \x7b" ++ (n ++ (" as " ++ (a ++ ("\x7d from '" ++ (p ++ "';\n")))))) ∧
    (∀ t, displayTopLevelStatement (.VariableDefinition t) = t) ∧
    displayTopLevelStatement (.ImportStatement (.Default "X") "path")
        = "import X from 'path';\n" ∧
    displayTopLevelStatement (.ImportStatement (.Named "name" none) "path")
        = "import \x7bname\x7d from 'path';\n" ∧
    displayTopLevelStatement (.ImportStatement (.Named "name" (some "alias")) "path")
        = "import \x7bname as alias\x7d from 'path';\n" := by
  refine ⟨?_, ?_, ?_, fun t => rfl, by decide, by decide, by decide⟩
  · intro d p
    simp [displayTopLevelStatement, String.append_assoc]
  · intro n p
    simp [displayTopLevelStatement, String.append_assoc]
  · intro n a p
    simp [displayTopLevelStatement, String.append_assoc]

/-- C7 counterexample: two variable definitions stored in a two-element collection
render with no newline anywhere, so the two statements share a single line — the
rendering of a `VariableDefinition` is not newline-terminated. -/
theorem vardef_newline_claim_cex :
    TopLevelStatements.render
        (TopLevelStatements.insert
          (TopLevelStatements.insert [] "a" (.VariableDefinition "const a = 1;"))
          "b" (.VariableDefinition "const b = 2;"))
      = "const a = 1;const b = 2;" ∧
    Char.ofNat 10 ∉
      (TopLevelStatements.render
        (TopLevelStatements.insert
          (TopLevelStatements.insert [] "a" (.VariableDefinition "const a = 1;"))
          "b" (.VariableDefinition "const b = 2;"))).data ∧
    (TopLevelStatements.insert
        (TopLevelStatements.insert [] "a" (.VariableDefinition "const a = 1;"))
        "b" (.VariableDefinition "const b = 2;")).length = 2 ∧
    ¬ (∃ s, displayTopLevelStatement (.VariableDefinition "const a = 1;") = s ++ "\n") := by
  refine ⟨by decide, by decide, by decide, ?_⟩
  rintro ⟨s, hs⟩
  have hlast : (s ++ "\n").data.getLast? = some (Char.ofNat 10) := by
    rw [String.data_append, List.getLast?_concat]
  rw [← hs] at hlast
  exact absurd hlast (by decide)

/-- C7 amended: `render` concatenates the sorted statements' renderings, where each import
statement's rendering is newline-terminated but a variable definition is
emitted verbatim with no newline appended (so consecutive variable definitions
share a line unless the stored text itself ends in a newline). -/
theorem render_line_structure_amended :
    (∀ m p, ∃ s, displayTopLevelStatement (.ImportStatement m p) = s ++ "\n") ∧
    (∀ t, displayTopLevelStatement (.VariableDefinition t) = t) ∧
    (∀ st, TopLevelStatements.render st
        = String.join
            (List.map displayTopLevelStatement (TopLevelStatements.sortedStatements st))) := by
  refine ⟨?_, fun t => rfl, fun st => rfl⟩
  intro m p
  cases m with
  | Default d =>
    exact ⟨"import " ++ d ++ " from '" ++ p ++ "';", append_newline_split _⟩
  | Named n a =>
    cases a with
    | none =>
      exact ⟨"import \x7b" ++ n ++ "\x7d from '" ++ p ++ "';", append_newline_split _⟩
    | some al =>
      exact ⟨"import \x7b" ++ n ++ " as " ++ al ++ "\x7d from '" ++ p ++ "';",
        append_newline_split _⟩

/-- C8: `contains` reflects exactly the symbols used by some insert in the
sequence applied to a fresh collection; overwrites never unbind and nothing
removes a symbol. -/
theorem contains_iff_inserted (ops : List (String × TopLevelStatement)) (s : String) :
    TopLevelStatements.contains (TopLevelStatements.insertAll [] ops) s = true
      ↔ s ∈ List.map Prod.fst ops := by
  have general : ∀ (ops : List (String × TopLevelStatement)) (st : TopLevelStatements),
      TopLevelStatements.contains (TopLevelStatements.insertAll st ops) s = true
        ↔ (TopLevelStatements.contains st s = true ∨ s ∈ List.map Prod.fst ops) := by
    intro ops
    induction ops with
    | nil =>
      intro st
      simp [TopLevelStatements.insertAll]
    | cons p ops ih =>
      intro st
      rw [show TopLevelStatements.insertAll st (p :: ops)
            = TopLevelStatements.insertAll (TopLevelStatements.insert st p.1 p.2) ops
          from rfl,
        ih, contains_insert]
      simp [or_assoc]
  have h := general ops []
  rw [h]
  simp [TopLevelStatements.contains]

/-- C9: `is_empty` is true exactly when no insert was ever performed; after any
insert the collection stays non-empty, and a fresh collection renders as the
empty string. -/
theorem is_empty_iff_never_inserted (ops : List (String × TopLevelStatement)) :
    (TopLevelStatements.is_empty (TopLevelStatements.insertAll [] ops) = true
        ↔ ops = []) ∧
    TopLevelStatements.render [] = "" := by
  refine ⟨⟨?_, ?_⟩, rfl⟩
  · intro h
    cases ops with
    | nil => rfl
    | cons p ops =>
      exfalso
      have hne : TopLevelStatements.insertAll [] (p :: ops) ≠ [] := by
        rw [show TopLevelStatements.insertAll [] (p :: ops)
              = TopLevelStatements.insertAll (TopLevelStatements.insert [] p.1 p.2) ops
            from rfl]
        exact insertAll_ne_nil ops _ (insert_ne_nil [] p.1 p.2)
      unfold TopLevelStatements.is_empty at h
      rw [List.isEmpty_iff] at h
      exact hne h
  · rintro rfl
    rfl

/-- C10: inserting under one symbol does not disturb the binding (nor the
containment status) of any other symbol. -/
theorem insert_frame_other_symbols (st : TopLevelStatements) (s1 s2 : String)
    (v2 : TopLevelStatement) (h : s1 ≠ s2) :
    TopLevelStatements.lookup (TopLevelStatements.insert st s2 v2) s1
        = TopLevelStatements.lookup st s1 ∧
    TopLevelStatements.contains (TopLevelStatements.insert st s2 v2) s1
        = TopLevelStatements.contains st s1 :=
  ⟨lookup_insert_ne st v2 h, contains_insert_ne st v2 h⟩

/-- C10 witness: the theorem applied to a concrete state and two distinct symbols. -/
theorem insert_frame_other_symbols_witness :
    ("a" : String) ≠ "b" ∧
    (TopLevelStatements.lookup
        (TopLevelStatements.insert
          [("a", TopLevelStatement.VariableDefinition "const a = 1;")] "b"
          (TopLevelStatement.VariableDefinition "const b = 2;")) "a"
      = TopLevelStatements.lookup
          [("a", TopLevelStatement.VariableDefinition "const a = 1;")] "a" ∧
    TopLevelStatements.contains
        (TopLevelStatements.insert
          [("a", TopLevelStatement.VariableDefinition "const a = 1;")] "b"
          (TopLevelStatement.VariableDefinition "const b = 2;")) "a"
      = TopLevelStatements.contains
          [("a", TopLevelStatement.VariableDefinition "const a = 1;")] "a") := by
  refine ⟨by decide, ?_⟩
  exact insert_frame_other_symbols
    [("a", TopLevelStatement.VariableDefinition "const a = 1;")] "a" "b"
    (TopLevelStatement.VariableDefinition "const b = 2;") (by decide)
